import Mathlib

/-!
Verification development for the layered snapshot cache of the bsc repository.

The Go sources modelled here are:
* `core/state/snapshot/lookup.go` — both revisions of `MultiVersionSnapshotCache`
  (an early one whose `RemoveDiffLayer` lowers the watermark and whose query scans
  carry no ancestry check and no break, and the current one with `checkParent`,
  a break in the scan loops and a max-direction watermark update), and the reverse
  `lookup` index.
* the unnamed source file holding the full `Lookup` index with its `descendants`
  relation (`addLayer`, `removeLayer`, `removeDescendant`, `lookupAccount`,
  `lookupStorage`, `newLookup`).
* `triedb/pathdb/difflayer.go` — diff layers with cumulative bloom filters
  (`rebloom`, `Node`).

Go maps are embedded as total functions from keys to lists, with the absent key
represented by the empty list (the Go code never stores an empty, non-deleted
slice, so absence and emptiness coincide behaviourally).  Hashes are `Nat`,
byte slices are `List Nat`, `uint64` versions are `Nat` (the code only compares
versions, it never wraps them).
-/

namespace Bsc

/-- Pointwise update of a function-map, used to model Go map assignment. -/
def updMap {κ α : Type} [DecidableEq κ] (m : κ → α) (k : κ) (v : α) : κ → α :=
  fun k' => if k' = k then v else m k'

/-- Update of a two-level function-map, used to model nested Go maps. -/
def updMap2 {κ₁ κ₂ α : Type} [DecidableEq κ₁] [DecidableEq κ₂]
    (m : κ₁ → κ₂ → α) (k₁ : κ₁) (k₂ : κ₂) (v : α) : κ₁ → κ₂ → α :=
  fun a => if a = k₁ then (fun b => if b = k₂ then v else m a b) else m a

/-- A Go loop `for i := len(l)-1; i >= 0; i--` that returns `l[i]` at the first
element satisfying `p` (the loop body ends in `break`).  Recursively: the answer
for the tail (the later elements) takes precedence over the head. -/
def findLastQ {α : Type} (p : α → Bool) : List α → Option α
  | [] => none
  | x :: xs =>
    match findLastQ p xs with
    | some y => some y
    | none => if p x then some x else none

/-- A state key of the reverse lookup index: an account hash, or an
(account hash, slot hash) pair.  In Go the two are the strings
`accountHash.String()` and `accountHash.String()+storageHash.String()`, which
never collide because the hex renderings have fixed width. -/
inductive StateKey where
  | acct (a : Nat)
  | slot (a s : Nat)
deriving DecidableEq

/-- A diff layer of the snapshot package, as consumed by the lookup index and
the multi-version cache: root hash, version (`diffLayerID` / state id), the
account write-set, the destruct set, the storage write-set, and the root of the
parent when the parent is itself a diff layer (`none` when the parent is the
disk layer — the code only inspects the parent's dynamic type and root). -/
structure DiffLayer where
  root : Nat
  diffLayerID : Nat
  accountData : List (Nat × List Nat)
  destructSet : List Nat
  storageData : List (Nat × List (Nat × List Nat))
  parent : Option Nat
deriving DecidableEq

/-- The keys touched by a diff layer, in the order the two Go range loops of
`addLayer`/`removeLayer` visit them: account keys, then storage keys. -/
def touchedKeys (d : DiffLayer) : List StateKey :=
  d.accountData.map (fun p => StateKey.acct p.1) ++
    d.storageData.foldr (fun p acc => p.2.map (fun q => StateKey.slot p.1 q.1) ++ acc) []

/-! ### The multi-version snapshot cache (current revision) -/

/-- `destructCacheItem` of the current revision: version and layer root. -/
structure DestructItem where
  version : Nat
  root : Nat
deriving DecidableEq

/-- `accountCacheItem` of the current revision. -/
structure AccountItem where
  version : Nat
  root : Nat
  data : List Nat
deriving DecidableEq

/-- `storageCacheItem` of the current revision. -/
structure StorageItem where
  version : Nat
  root : Nat
  data : List Nat
deriving DecidableEq

/-- `MultiVersionSnapshotCache` (current revision): three per-key item maps, the
eviction watermark and the ancestry table `diffLayerParent` (each root mapped to
the set of its diff-layer ancestors, itself included).  The metrics counter
`cacheItemNumber` is omitted, like the log and timer calls. -/
structure MVCache where
  destructCache : Nat → List DestructItem
  accountDataCache : Nat → List AccountItem
  storageDataCache : Nat → Nat → List StorageItem
  minVersion : Nat
  diffLayerParent : Nat → List Nat

/-- `NewMultiVersionSnapshotCache` of the current revision: empty maps and
`minVersion = 0`. -/
def emptyMVCache : MVCache :=
  ⟨fun _ => [], fun _ => [], fun _ _ => [], 0, fun _ => []⟩

/-- `checkParent`: whether `parentRoot` lies in the recorded ancestor set of
`childRoot` (false when `childRoot` has no entry). -/
def checkParent (c : MVCache) (childRoot parentRoot : Nat) : Bool :=
  decide (parentRoot ∈ c.diffLayerParent childRoot)

/-- `AddDiffLayer` (current revision): append one item per touched key, and
extend the ancestry table — clone the parent's ancestor set and insert the new
root when the parent is a diff layer whose set exists, initialise `{root}` when
the parent is the disk layer, and leave the table unchanged on the logged
"impossible branch" (diff parent with a missing set). -/
def AddDiffLayer (c : MVCache) (ly : DiffLayer) : MVCache :=
  let dc := ly.destructSet.foldl
    (fun m h => updMap m h (m h ++ [⟨ly.diffLayerID, ly.root⟩])) c.destructCache
  let ac := ly.accountData.foldl
    (fun m p => updMap m p.1 (m p.1 ++ [⟨ly.diffLayerID, ly.root, p.2⟩])) c.accountDataCache
  let sc := ly.storageData.foldl
    (fun m p => p.2.foldl
      (fun m2 q => updMap2 m2 p.1 q.1 (m2 p.1 q.1 ++ [⟨ly.diffLayerID, ly.root, q.2⟩])) m)
    c.storageDataCache
  let dlp :=
    match ly.parent with
    | some proot =>
      if c.diffLayerParent proot ≠ [] then
        updMap c.diffLayerParent ly.root (c.diffLayerParent proot ++ [ly.root])
      else c.diffLayerParent
    | none => updMap c.diffLayerParent ly.root [ly.root]
  ⟨dc, ac, sc, c.minVersion, dlp⟩

/-- The synchronous part of `RemoveDiffLayer` (current revision):
`if c.minVersion < ly.diffLayerID { c.minVersion = ly.diffLayerID }`. -/
def RemoveDiffLayerSync (c : MVCache) (ly : DiffLayer) : MVCache :=
  if c.minVersion < ly.diffLayerID then { c with minVersion := ly.diffLayerID } else c

/-- The watermark update of the EARLY revision of `RemoveDiffLayer`:
`if c.minVersion > ly.diffLayerID { c.minVersion = ly.diffLayerID }` —
it lowers the watermark instead of raising it. -/
def removeWatermarkV1 (minVersion id : Nat) : Nat :=
  if minVersion > id then id else minVersion

/-- The per-key inner loop of the background eviction pass of
`RemoveDiffLayer` for the destruct and account caches:

```
for i := 0; i < len(c.destructCache); i++ {
    if list[i].version <= c.minVersion {
        list = append(list[:i], list[i+1:]...)
        i--
    }
}
```

The loop bound is the number of keys of the surrounding MAP (`len(c.destructCache)`),
not the length of the list being filtered.  The encoding splits the list at the
loop index: `kept` holds the elements at positions `< i` (already examined and
retained), `rest` the elements from position `i` on, and `rem = bound - i` is
the remaining loop budget.  Removing an element keeps `i` (the `i--`/`i++` pair)
so `rem` is unchanged; skipping an element advances `i`, consuming one unit of
`rem`.  Reading `list[i]` with `i` beyond the current list (`rest = []` while
`rem > 0`) is a Go "index out of range" panic, modelled as `none`. -/
def evictGo (minV : Nat) : Nat → List DestructItem → List DestructItem → Option (List DestructItem)
  | 0, kept, rest => some (kept ++ rest)
  | _ + 1, _, [] => none
  | rem + 1, kept, it :: rest =>
    if it.version ≤ minV then evictGo minV (rem + 1) kept rest
    else evictGo minV rem (kept ++ [it]) rest

/-- The result triple of `QueryAccount` / `QueryStorage`:
`(data-slice, need-try-disklayer, error)`. -/
structure QueryResult where
  data : Option (List Nat)
  needDisk : Bool
  err : Option String
deriving DecidableEq

/-- The scan predicate of `QueryAccount` over account items (current revision):
`item.version <= version && item.version > c.minVersion && c.checkParent(rootHash, item.root)`. -/
def accountHit (c : MVCache) (version rootHash : Nat) (it : AccountItem) : Bool :=
  decide (it.version ≤ version) && decide (c.minVersion < it.version) &&
    checkParent c rootHash it.root

/-- The scan predicate over destruct items (current revision). -/
def destructHit (c : MVCache) (version rootHash : Nat) (it : DestructItem) : Bool :=
  decide (it.version ≤ version) && decide (c.minVersion < it.version) &&
    checkParent c rootHash it.root

/-- The scan predicate over storage items (current revision). -/
def storageHit (c : MVCache) (version rootHash : Nat) (it : StorageItem) : Bool :=
  decide (it.version ≤ version) && decide (c.minVersion < it.version) &&
    checkParent c rootHash it.root

/-- The account-item scan of `QueryAccount`: walk the key's item list from the
end, stopping (`break`) at the first hit. -/
def scanAccountItem (c : MVCache) (version rootHash ahash : Nat) : Option AccountItem :=
  findLastQ (accountHit c version rootHash) (c.accountDataCache ahash)

/-- The destruct-item scan of `QueryAccount`. -/
def scanAccountDestruct (c : MVCache) (version rootHash ahash : Nat) : Option DestructItem :=
  findLastQ (destructHit c version rootHash) (c.destructCache ahash)

/-- The storage-item scan of `QueryStorage`. -/
def scanStorageItem (c : MVCache) (version rootHash ahash shash : Nat) : Option StorageItem :=
  findLastQ (storageHit c version rootHash) (c.storageDataCache ahash shash)

/-- `QueryAccount` (current revision, non-nil receiver): run the two scans, then
resolve — item alone: found; destruct alone: deleted; neither: fall back to the
disk layer; both: the account item wins iff its version is `>=` the destruct's. -/
def QueryAccount (c : MVCache) (version rootHash ahash : Nat) : QueryResult :=
  match scanAccountItem c version rootHash ahash,
        scanAccountDestruct c version rootHash ahash with
  | some a, none => ⟨some a.data, false, none⟩
  | none, some _ => ⟨none, false, none⟩
  | none, none => ⟨none, true, none⟩
  | some a, some d =>
    if d.version ≤ a.version then ⟨some a.data, false, none⟩ else ⟨none, false, none⟩

/-- `QueryStorage` (current revision, non-nil receiver). -/
def QueryStorage (c : MVCache) (version rootHash ahash shash : Nat) : QueryResult :=
  match scanStorageItem c version rootHash ahash shash,
        scanAccountDestruct c version rootHash ahash with
  | some s, none => ⟨some s.data, false, none⟩
  | none, some _ => ⟨none, false, none⟩
  | none, none => ⟨none, true, none⟩
  | some s, some d =>
    if d.version ≤ s.version then ⟨some s.data, false, none⟩ else ⟨none, false, none⟩

/-- `QueryAccount` including the nil-receiver guard: a nil cache returns
`(nil, false, fmt.Errorf("not found, need try difflayer"))`. -/
def QueryAccountOpt (c : Option MVCache) (version rootHash ahash : Nat) : QueryResult :=
  match c with
  | none => ⟨none, false, some "not found, need try difflayer"⟩
  | some c => QueryAccount c version rootHash ahash

/-- `QueryStorage` including the nil-receiver guard. -/
def QueryStorageOpt (c : Option MVCache) (version rootHash ahash shash : Nat) : QueryResult :=
  match c with
  | none => ⟨none, false, some "not found, need try difflayer"⟩
  | some c => QueryStorage c version rootHash ahash shash

/-! ### The multi-version snapshot cache (early revision)

The early revision's cache items carry no root, its scan loops have no
`break` (so the LAST executed assignment — the qualifying item closest to the
FRONT of the list — wins) and no ancestry check. -/

/-- `accountCacheItem` of the early revision (no root). -/
structure AccountItemV1 where
  version : Nat
  data : List Nat
deriving DecidableEq

/-- `destructCacheItem` of the early revision (no root). -/
structure DestructItemV1 where
  version : Nat
deriving DecidableEq

/-- The early revision's cache: no ancestry table; `NewMultiVersionSnapshotCache`
initialises `minVersion` to `math.MaxUint64`. -/
structure MVCacheV1 where
  destructCache : Nat → List DestructItemV1
  accountDataCache : Nat → List AccountItemV1
  minVersion : Nat

/-- The early revision's account scan: the loop runs from the end to the front
without `break`, so the final value of `queryAccountItem` is the qualifying item
with the smallest index — the first qualifying element in list order. -/
def scanAccountItemV1 (c : MVCacheV1) (version ahash : Nat) : Option AccountItemV1 :=
  (c.accountDataCache ahash).find?
    (fun it => decide (it.version ≤ version) && decide (c.minVersion < it.version))

/-- The early revision's destruct scan (no `break`, no ancestry check). -/
def scanAccountDestructV1 (c : MVCacheV1) (version ahash : Nat) : Option DestructItemV1 :=
  (c.destructCache ahash).find?
    (fun it => decide (it.version ≤ version) && decide (c.minVersion < it.version))

/-- `QueryAccount` of the early revision (non-nil receiver). -/
def QueryAccountV1 (c : MVCacheV1) (version ahash : Nat) : QueryResult :=
  match scanAccountItemV1 c version ahash, scanAccountDestructV1 c version ahash with
  | some a, none => ⟨some a.data, false, none⟩
  | none, some _ => ⟨none, false, none⟩
  | none, none => ⟨none, true, none⟩
  | some a, some d =>
    if d.version ≤ a.version then ⟨some a.data, false, none⟩ else ⟨none, false, none⟩

/-! ### The reverse lookup index (`Lookup`) -/

/-- A snapshot chain: the disk layer at the bottom, diff layers stacked above
(`Parent()` is the next element down). -/
inductive Snap where
  | disk (root : Nat)
  | diffS (d : DiffLayer) (parent : Snap)

/-- The `Lookup` index: the key → entry-list map (entries are the diff layers
that wrote the key, appended in insertion order) and the `descendants` relation
(root → set of roots that have it as a strict diff-layer ancestor).  Absent map
keys are the empty list. -/
structure Lookup where
  state2LayerRoots : StateKey → List DiffLayer
  descendants : Nat → List Nat

/-- The empty index (the pre-insertion state). -/
def emptyLookup : Lookup := ⟨fun _ => [], fun _ => []⟩

/-- Core of `addLayer`: append the layer to each touched key's entry list. -/
def addKeys (d : DiffLayer) : (StateKey → List DiffLayer) → List StateKey → StateKey → List DiffLayer
  | m, [] => m
  | m, k :: ks => addKeys d (updMap m k (m k ++ [d])) ks

/-- `Lookup.addLayer`: link every dirty state of the diff layer into the index
(the descendants relation is not touched). -/
def addLayer (l : Lookup) (d : DiffLayer) : Lookup :=
  ⟨addKeys d l.state2LayerRoots (touchedKeys d), l.descendants⟩

/-- The entry-removal scan of `removeLayer` for one key: drop the FIRST entry
whose root matches, `none` when no entry matches. -/
def eraseFirstRoot (r : Nat) : List DiffLayer → Option (List DiffLayer)
  | [] => none
  | e :: es => if e.root = r then some es else (eraseFirstRoot r es).map (e :: ·)

/-- One key's step of `removeLayer`: a missing key (`subset == nil`) or a scan
with no match is an error; otherwise store the shortened list (storing `[]`
models Go's `delete` of the emptied key). -/
def removeFromKey (r : Nat) (m : StateKey → List DiffLayer) (k : StateKey) :
    Except String (StateKey → List DiffLayer) :=
  if m k = [] then .error "unknown state key"
  else
    match eraseFirstRoot r (m k) with
    | none => .error "failed to delete lookup"
    | some s => .ok (updMap m k s)

/-- The key loop of `removeLayer`: process the touched keys in order, stopping
at the first error. -/
def removeKeysM (r : Nat) : (StateKey → List DiffLayer) → List StateKey →
    Except String (StateKey → List DiffLayer)
  | m, [] => .ok m
  | m, k :: ks =>
    match removeFromKey r m k with
    | .error e => .error e
    | .ok m' => removeKeysM r m' ks

/-- `Lookup.removeLayer`: unlink every dirty state of the diff layer, failing
when an expected entry is absent (the descendants relation is not touched). -/
def removeLayer (l : Lookup) (d : DiffLayer) : Except String Lookup :=
  match removeKeysM d.root l.state2LayerRoots (touchedKeys d) with
  | .error e => .error e
  | .ok m => .ok ⟨m, l.descendants⟩

/-- `Lookup.removeDescendant`: drop the layer's own descendant set
(`delete(l.descendants, root)`). -/
def removeDescendant (l : Lookup) (d : DiffLayer) : Lookup :=
  ⟨l.state2LayerRoots, updMap l.descendants d.root []⟩

/-- `removeLayer` followed by `removeDescendant`, the retirement step of one
diff layer. -/
def removeStep (l : Lookup) (d : DiffLayer) : Except String Lookup :=
  match removeLayer l d with
  | .error e => .error e
  | .ok l' => .ok (removeDescendant l' d)

/-- `isDescendant(state, ancestor)`: membership of `state` in
`descendants[ancestor]`. -/
def isDescendant (l : Lookup) (state ancestor : Nat) : Bool :=
  decide (state ∈ l.descendants ancestor)

/-- The scan predicate of `lookupAccount`/`lookupStorage`: the entry's root
equals the queried head, or the head is a recorded descendant of it. -/
def lookupPred (l : Lookup) (head : Nat) (e : DiffLayer) : Bool :=
  decide (e.root = head) || isDescendant l head e.root

/-- `Lookup.lookupAccount`: reverse scan of the account key's entry list for
the first (most recently added) qualifying entry. -/
def lookupAccount (l : Lookup) (ahash head : Nat) : Option DiffLayer :=
  findLastQ (lookupPred l head) (l.state2LayerRoots (StateKey.acct ahash))

/-- `Lookup.lookupStorage`: reverse scan of the slot key's entry list. -/
def lookupStorage (l : Lookup) (ahash shash head : Nat) : Option DiffLayer :=
  findLastQ (lookupPred l head) (l.state2LayerRoots (StateKey.slot ahash shash))

/-- The roots of the diff layers of a chain, top to bottom. -/
def diffRoots : Snap → List Nat
  | .disk _ => []
  | .diffS d p => d.root :: diffRoots p

/-- `collectDiffLayerAncestors`: the roots of the strict diff-layer ancestors of
a layer (walking parents until the disk layer). -/
def collectDiffLayerAncestors : Snap → List Nat
  | .disk _ => []
  | .diffS _ p => diffRoots p

/-- The state-mapping part of `newLookup`: apply `addLayer` to the chain's diff
layers from the bottom up. -/
def chainAddAll : Snap → (StateKey → List DiffLayer)
  | .disk _ => fun _ => []
  | .diffS d p => addKeys d (chainAddAll p) (touchedKeys d)

/-- Record one layer's root in the descendant set of each of its diff-layer
ancestors. -/
def descAddOne (m : Nat → List Nat) (root : Nat) : List Nat → Nat → List Nat
  | [] => m
  | a :: ancs => descAddOne (updMap m a (m a ++ [root])) root ancs

/-- The descendant-mapping part of `newLookup`: every layer of the chain is
recorded in the descendant set of each of its strict diff-layer ancestors. -/
def chainDescAll : Snap → (Nat → List Nat)
  | .disk _ => fun _ => []
  | .diffS d p => descAddOne (chainDescAll p) d.root (collectDiffLayerAncestors (.diffS d p))

/-- `newLookup`: build the index for a head layer's chain. -/
def newLookup (head : Snap) : Lookup :=
  ⟨chainAddAll head, chainDescAll head⟩

/-! ### The pathdb diff layers and their cumulative bloom filters

A bloom filter is modelled at the bit level as the list of set bit positions:
`bitsFn h` gives the positions a 64-bit key hash `h` sets (the k hash functions
of the filter), `AddHash` unions them in, `ContainsHash` tests that all of them
are set.  `hashFn` is `nodeBloomHash`.  Both functions are parameters: the
claims hold for every choice, which is exactly the "no false negatives by
construction" property of a bloom filter. -/

/-- A pathdb layer chain: the disk layer, or a diff layer
`(root, id, nodes, parent)` where `nodes` maps each owner hash to its dirty
trie-node paths. -/
inductive PathLayer where
  | disk (root : Nat)
  | diff (root : Nat) (id : Nat) (nodes : List (Nat × List (List Nat))) (parent : PathLayer)

/-- `Filter.AddHash`: set all bits of the key hash. -/
def addHash (bitsFn : Nat → List Nat) (f : List Nat) (h : Nat) : List Nat :=
  f ++ bitsFn h

/-- `Filter.ContainsHash`: all bits of the key hash are set. -/
def containsHash (bitsFn : Nat → List Nat) (f : List Nat) (h : Nat) : Bool :=
  (bitsFn h).all (fun b => decide (b ∈ f))

/-- `selfDiffed`: the filter built from the layer's own writes —
`for owner, subset := range dl.nodes { for path := range subset { AddHash(nodeBloomHash(owner, path)) } }`. -/
def selfDiffedBits (bitsFn : Nat → List Nat) (hashFn : Nat → List Nat → Nat)
    (nodes : List (Nat × List (List Nat))) : List Nat :=
  nodes.foldl (fun f op => op.2.foldl (fun f2 p => addHash bitsFn f2 (hashFn op.1 p)) f) []

/-- `diffed`, the cumulative filter established by `rebloom`: a copy of the
parent diff layer's cumulative filter (or a fresh empty filter when the parent
is the disk layer), unioned with `selfDiffed`. -/
def diffedBits (bitsFn : Nat → List Nat) (hashFn : Nat → List Nat → Nat) : PathLayer → List Nat
  | .disk _ => []
  | .diff _ _ nodes parent => diffedBits bitsFn hashFn parent ++ selfDiffedBits bitsFn hashFn nodes

/-- Where `Node` sends a query after consulting the bloom filter. -/
inductive Route where
  | toDisk
  | walk
deriving DecidableEq

/-- The routing decision of `diffLayer.Node`: a bloom miss extracts `origin`
and goes straight to the disk layer, a hit walks the diff chain (`dl.node`). -/
def nodeRoute (bitsFn : Nat → List Nat) (hashFn : Nat → List Nat → Nat) :
    PathLayer → Nat → List Nat → Route
  | .disk _, _, _ => .toDisk
  | .diff r i nodes parent, owner, path =>
    if containsHash bitsFn (diffedBits bitsFn hashFn (.diff r i nodes parent)) (hashFn owner path)
    then .walk else .toDisk

/-- Whether `(owner, path)` is in a given layer's own write set. -/
def writesKey (nodes : List (Nat × List (List Nat))) (owner : Nat) (path : List Nat) : Bool :=
  nodes.any (fun op => decide (op.1 = owner) && op.2.any (fun p => decide (p = path)))

/-- Whether some diff layer of the chain (the queried layer included) wrote
`(owner, path)` — "written above the disk layer". -/
def writtenAbove : PathLayer → Nat → List Nat → Bool
  | .disk _, _, _ => false
  | .diff _ _ nodes parent, owner, path =>
    writesKey nodes owner path || writtenAbove parent owner path

/-- A concrete bit-spread function for witnesses: hash `h` sets bits `h` and
`h + 1`. -/
def bitsFn0 : Nat → List Nat := fun h => [h, h + 1]

/-- A concrete `nodeBloomHash` for witnesses. -/
def hashFn0 : Nat → List Nat → Nat := fun owner path => owner * 64 + path.length

/-! ### Concrete instances used by witnesses and counterexamples -/

/-- A layer with root 11, version 7, writing account 1, on top of the disk layer. -/
def l1a : DiffLayer := ⟨11, 7, [(1, [7])], [], [], none⟩

/-- A layer with root 12 and the OUT-OF-ORDER version 5, also writing account 1,
child of root 11. -/
def l1b : DiffLayer := ⟨12, 5, [(1, [5])], [], [], some 11⟩

/-- The cache after adding `l1a` then `l1b`. -/
def c1cache : MVCache := AddDiffLayer (AddDiffLayer emptyMVCache l1a) l1b

/-- The cache holding only `l1a`. -/
def c1s : MVCache := AddDiffLayer emptyMVCache l1a

/-- An early-revision cache state whose account list for key 1 is sorted by
version with both items qualifying. -/
def v1c : MVCacheV1 :=
  ⟨fun _ => [], fun h => if h = 1 then [⟨5, [5]⟩, ⟨7, [7]⟩] else [], 0⟩

/-- Scenario layer: destruct of account 1 at version 5 (root 21, disk parent). -/
def l4d : DiffLayer := ⟨21, 5, [], [1], [], none⟩

/-- Scenario layer: write of account 1 at version 7 (root 22, child of 21). -/
def l4w : DiffLayer := ⟨22, 7, [(1, [77])], [], [], some 21⟩

/-- Destruct at 5 followed by write at 7 on the same chain. -/
def c4s1 : MVCache := AddDiffLayer (AddDiffLayer emptyMVCache l4d) l4w

/-- Scenario layer: write of account 1 at version 5 (root 23, disk parent). -/
def l4w5 : DiffLayer := ⟨23, 5, [(1, [55])], [], [], none⟩

/-- Scenario layer: destruct of account 1 at version 7 (root 24, child of 23). -/
def l4d7 : DiffLayer := ⟨24, 7, [], [1], [], some 23⟩

/-- Write at 5 followed by destruct at 7 on the same chain. -/
def c4s2 : MVCache := AddDiffLayer (AddDiffLayer emptyMVCache l4w5) l4d7

/-- A layer that both destructs account 1 and re-writes it in the same block
(version 5, root 31), giving a data item and a destruct marker of EQUAL version. -/
def l10 : DiffLayer := ⟨31, 5, [(1, [9])], [1], [], none⟩

/-- The cache holding only `l10`. -/
def c10 : MVCache := AddDiffLayer emptyMVCache l10

/-- Chain layer D1: root 1, version 1, writes account 5 with data `[1]`. -/
def d61 : DiffLayer := ⟨1, 1, [(5, [1])], [], [], none⟩

/-- Chain layer D2: root 2, version 2, writes account 5 with data `[2]`. -/
def d62 : DiffLayer := ⟨2, 2, [(5, [2])], [], [], some 1⟩

/-- Chain layer D3: root 3, version 3, writes nothing. -/
def d63 : DiffLayer := ⟨3, 3, [], [], [], some 2⟩

/-- The chain disk → D1 → D2 → D3. -/
def chain6 : Snap := .diffS d63 (.diffS d62 (.diffS d61 (.disk 0)))

/-- The lookup index built for `chain6`. -/
def lk6 : Lookup := newLookup chain6

/-- A pathdb chain: a diff layer writing `(owner 2, path [3])` under a diff
layer writing `(owner 9, path [1])`. -/
def layer7 : PathLayer := .diff 42 2 [(9, [[1]])] (.diff 41 1 [(2, [[3]])] (.disk 40))

/-- A layer touching account 6, used against the empty index. -/
def d8 : DiffLayer := ⟨51, 4, [(6, [1])], [], [], none⟩

/-- Round-trip layer 1: root 61, version 1, one account key and one slot key. -/
def d91 : DiffLayer := ⟨61, 1, [(5, [1])], [], [(7, [(8, [2])])], none⟩

/-- Round-trip layer 2: root 62, version 2, the same account key. -/
def d92 : DiffLayer := ⟨62, 2, [(5, [3])], [], [], some 61⟩

/-! ## Generic scan lemmas -/

theorem findLastQ_none_forall {α : Type} {p : α → Bool} :
    ∀ {l : List α}, findLastQ p l = none → ∀ x ∈ l, p x = false := by
  intro l
  induction l with
  | nil => intro _ x hx; cases hx
  | cons a t ih =>
    intro h x hx
    cases ht : findLastQ p t with
    | some y => rw [findLastQ, ht] at h; exact Option.noConfusion h
    | none =>
      simp only [findLastQ, ht] at h
      by_cases hpa : p a
      · simp [hpa] at h
      · rcases List.mem_cons.mp hx with rfl | hxt
        · exact Bool.eq_false_iff.mpr hpa
        · exact ih ht x hxt

theorem findLastQ_split {α : Type} {p : α → Bool} :
    ∀ {l : List α} {x : α}, findLastQ p l = some x →
      ∃ s t, l = s ++ x :: t ∧ p x = true ∧ ∀ y ∈ t, p y = false := by
  intro l
  induction l with
  | nil => intro x h; simp [findLastQ] at h
  | cons a t ih =>
    intro x h
    cases ht : findLastQ p t with
    | some y =>
      simp only [findLastQ, ht] at h
      obtain rfl : y = x := Option.some.inj h
      obtain ⟨s, u, heq, hp, hu⟩ := ih ht
      exact ⟨a :: s, u, by rw [heq]; rfl, hp, hu⟩
    | none =>
      simp only [findLastQ, ht] at h
      by_cases hpa : p a
      · rw [if_pos hpa] at h
        obtain rfl : a = x := Option.some.inj h
        exact ⟨[], t, rfl, hpa, findLastQ_none_forall ht⟩
      · rw [if_neg hpa] at h
        cases h

theorem findLastQ_isMax {α : Type} (f : α → Nat) {p : α → Bool} {l : List α} {x : α}
    (hs : l.Pairwise (fun a b => f a ≤ f b)) (h : findLastQ p l = some x) :
    p x = true ∧ x ∈ l ∧ ∀ y ∈ l, p y = true → f y ≤ f x := by
  obtain ⟨s, t, rfl, hp, ht⟩ := findLastQ_split h
  rw [List.pairwise_append] at hs
  refine ⟨hp, List.mem_append.mpr (Or.inr (List.mem_cons_self _ _)), ?_⟩
  intro y hy hpy
  rcases List.mem_append.mp hy with hys | hyxt
  · exact hs.2.2 y hys x (List.mem_cons_self _ _)
  · rcases List.mem_cons.mp hyxt with rfl | hyt
    · exact Nat.le_refl _
    · exact absurd hpy (by simp [ht y hyt])

/-! ## Claims -/

/-- Claim C1, amended.  In the current revision of `QueryAccount`/`QueryStorage`
(the one with the ancestry check), each scan selects the MOST RECENTLY APPENDED
item satisfying `version ≤ queried version ∧ version > minVersion ∧
root ∈ ancestry[queriedRoot]`; whenever a key's item list is sorted in ascending
version order (the order produced by inserting layers bottom-up in version
order), that item is one with the greatest qualifying version, as the claim
states.  When no item and no destruct marker qualify, the query returns
`needFallbackToDisk = true`, even when items with `version ≤ minVersion` are
still physically present in the maps. -/
theorem C1_thm (c : MVCache) (version rootHash ahash shash : Nat) :
    ((c.accountDataCache ahash).Pairwise (fun a b => a.version ≤ b.version) →
      ∀ it, scanAccountItem c version rootHash ahash = some it →
        accountHit c version rootHash it = true ∧
        ∀ it' ∈ c.accountDataCache ahash,
          accountHit c version rootHash it' = true → it'.version ≤ it.version) ∧
    ((c.destructCache ahash).Pairwise (fun a b => a.version ≤ b.version) →
      ∀ it, scanAccountDestruct c version rootHash ahash = some it →
        destructHit c version rootHash it = true ∧
        ∀ it' ∈ c.destructCache ahash,
          destructHit c version rootHash it' = true → it'.version ≤ it.version) ∧
    ((c.storageDataCache ahash shash).Pairwise (fun a b => a.version ≤ b.version) →
      ∀ it, scanStorageItem c version rootHash ahash shash = some it →
        storageHit c version rootHash it = true ∧
        ∀ it' ∈ c.storageDataCache ahash shash,
          storageHit c version rootHash it' = true → it'.version ≤ it.version) ∧
    (scanAccountItem c version rootHash ahash = none →
      scanAccountDestruct c version rootHash ahash = none →
      (∀ it ∈ c.accountDataCache ahash, accountHit c version rootHash it = false) ∧
      (∀ it ∈ c.destructCache ahash, destructHit c version rootHash it = false) ∧
      QueryAccount c version rootHash ahash = ⟨none, true, none⟩) ∧
    (scanStorageItem c version rootHash ahash shash = none →
      scanAccountDestruct c version rootHash ahash = none →
      QueryStorage c version rootHash ahash shash = ⟨none, true, none⟩) := by
  refine ⟨?_, ?_, ?_, ?_, ?_⟩
  · intro hs it h
    have hm := findLastQ_isMax (fun a => a.version) hs h
    exact ⟨hm.1, fun it' h1 h2 => hm.2.2 it' h1 h2⟩
  · intro hs it h
    have hm := findLastQ_isMax (fun a => a.version) hs h
    exact ⟨hm.1, fun it' h1 h2 => hm.2.2 it' h1 h2⟩
  · intro hs it h
    have hm := findLastQ_isMax (fun a => a.version) hs h
    exact ⟨hm.1, fun it' h1 h2 => hm.2.2 it' h1 h2⟩
  · intro h1 h2
    refine ⟨findLastQ_none_forall h1, findLastQ_none_forall h2, ?_⟩
    simp only [QueryAccount, h1, h2]
  · intro h1 h2
    simp only [QueryStorage, h1, h2]

/-- Witness for C1: on a singleton (hence sorted) list the selected item is the
greatest qualifying one, and a query whose only items are out of window falls
back to disk with the stale items still present. -/
theorem C1_witness :
    (accountHit c1s 7 11 ⟨7, 11, [7]⟩ = true ∧
      ∀ it' ∈ c1s.accountDataCache 1,
        accountHit c1s 7 11 it' = true → it'.version ≤ 7) ∧
    QueryAccount c1cache 0 12 1 = ⟨none, true, none⟩ := by
  constructor
  · have h := (C1_thm c1s 7 11 1 0).1 (by decide) ⟨7, 11, [7]⟩ (by decide)
    exact ⟨h.1, fun it' h1 h2 => h.2 it' h1 h2⟩
  · exact ((C1_thm c1cache 0 12 1 0).2.2.2.1 (by decide) (by decide)).2.2

/-- Counterexample for C1 as stated: after adding root 11 (version 7) and then
root 12 (version 5), both writing account 1, the query at version 7 from root 12
returns the version-5 data even though the version-7 item also qualifies — the
scan picks the most recently appended qualifying item, not the greatest-version
one.  In the early revision the claim fails even on version-sorted lists: the
no-break scan returns the OLDEST qualifying item. -/
theorem C1_cex :
    QueryAccount c1cache 7 12 1 = ⟨some [5], false, none⟩ ∧
    (⟨7, 11, [7]⟩ : AccountItem) ∈ c1cache.accountDataCache 1 ∧
    accountHit c1cache 7 12 ⟨7, 11, [7]⟩ = true ∧
    (5 : Nat) < 7 ∧
    QueryAccountV1 v1c 7 1 = ⟨some [5], false, none⟩ ∧
    (⟨7, [7]⟩ : AccountItemV1) ∈ v1c.accountDataCache 1 ∧
    (v1c.accountDataCache 1).Pairwise (fun a b => a.version ≤ b.version) := by
  decide

/-- Claim C2.  The current revision's `RemoveDiffLayer` updates the watermark as
`minVersion = max(minVersion, ly.version)` (hence monotonically non-decreasing);
the EARLY revision at `lookup.go:253-255` does the opposite — it lowers the
watermark to `min(minVersion, ly.version)`, so on `minVersion = 10`,
`ly.version = 3` it produces 3 where the claim requires 10. -/
theorem C2_thm :
    (∀ (c : MVCache) (ly : DiffLayer),
      (RemoveDiffLayerSync c ly).minVersion = Nat.max c.minVersion ly.diffLayerID) ∧
    removeWatermarkV1 10 3 = 3 ∧ Nat.max 10 3 = 10 := by
  refine ⟨?_, by decide, by decide⟩
  intro c ly
  by_cases h : c.minVersion < ly.diffLayerID
  · rw [RemoveDiffLayerSync, if_pos h]
    exact (Nat.max_eq_right h.le).symm
  · rw [RemoveDiffLayerSync, if_neg h]
    exact (Nat.max_eq_left (Nat.not_lt.mp h)).symm

/-- Claim C3, amended.  On a nil receiver, `QueryAccount` and `QueryStorage`
return no data and `needFallbackToDisk = false`, and DO surface a non-nil error
(`"not found, need try difflayer"`): the fall-back signal is carried in the
error value, not in the boolean, for every input. -/
theorem C3_thm (version rootHash ahash shash : Nat) :
    QueryAccountOpt none version rootHash ahash =
      ⟨none, false, some "not found, need try difflayer"⟩ ∧
    QueryStorageOpt none version rootHash ahash shash =
      ⟨none, false, some "not found, need try difflayer"⟩ :=
  ⟨rfl, rfl⟩

/-- Counterexample for C3 as stated: the nil-receiver call surfaces a non-nil
error and reports `needFallbackToDisk = false`, not an error-free fallback. -/
theorem C3_cex :
    (QueryAccountOpt none 0 0 0).err = some "not found, need try difflayer" ∧
    (QueryAccountOpt none 0 0 0).needDisk = false ∧
    (QueryStorageOpt none 0 0 0 0).err.isSome = true :=
  ⟨rfl, rfl, rfl⟩

/-- Claim C4.  When both a data item and a destruct marker are selected for the
same account (resp. slot), the greater version wins, the account item winning
ties; and the two concrete scenarios: destruct at version 5 then write at
version 7 on the same chain returns the written value at version 7, while write
at 5 then destruct at 7 reports deleted (nil data) with no disk fallback. -/
theorem C4_thm :
    (∀ (c : MVCache) (version rootHash ahash : Nat) (ai : AccountItem) (di : DestructItem),
      scanAccountItem c version rootHash ahash = some ai →
      scanAccountDestruct c version rootHash ahash = some di →
        (di.version ≤ ai.version →
          QueryAccount c version rootHash ahash = ⟨some ai.data, false, none⟩) ∧
        (ai.version < di.version →
          QueryAccount c version rootHash ahash = ⟨none, false, none⟩)) ∧
    (∀ (c : MVCache) (version rootHash ahash shash : Nat) (si : StorageItem) (di : DestructItem),
      scanStorageItem c version rootHash ahash shash = some si →
      scanAccountDestruct c version rootHash ahash = some di →
        (di.version ≤ si.version →
          QueryStorage c version rootHash ahash shash = ⟨some si.data, false, none⟩) ∧
        (si.version < di.version →
          QueryStorage c version rootHash ahash shash = ⟨none, false, none⟩)) ∧
    QueryAccount c4s1 7 22 1 = ⟨some [77], false, none⟩ ∧
    QueryAccount c4s2 7 24 1 = ⟨none, false, none⟩ := by
  refine ⟨?_, ?_, by decide, by decide⟩
  · intro c version rootHash ahash ai di h1 h2
    constructor
    · intro hle
      simp only [QueryAccount, h1, h2]
      rw [if_pos hle]
    · intro hlt
      simp only [QueryAccount, h1, h2]
      rw [if_neg (Nat.not_le.mpr hlt)]
  · intro c version rootHash ahash shash si di h1 h2
    constructor
    · intro hle
      simp only [QueryStorage, h1, h2]
      rw [if_pos hle]
    · intro hlt
      simp only [QueryStorage, h1, h2]
      rw [if_neg (Nat.not_le.mpr hlt)]

/-- Witness for C4: the destruct-then-write scenario resolved through the
general resolution rule. -/
theorem C4_witness : QueryAccount c4s1 7 22 1 = ⟨some [77], false, none⟩ :=
  (C4_thm.1 c4s1 7 22 1 ⟨7, 22, [77]⟩ ⟨5, 21⟩ (by decide) (by decide)).1 (by decide)

/-- Claim C5.  The eviction pass of `RemoveDiffLayer` bounds each per-key scan
of the destruct and account caches by the number of MAP KEYS
(`len(c.destructCache)`) instead of the list length.  With `minVersion = 5`, a
single-key destruct cache whose list is `[version 10, version 1]` completes the
pass with the stale version-1 item still present (the claim requires it
deleted); with two map keys and a one-item list the pass indexes out of range
(a Go panic, modelled as `none`). -/
theorem C5_thm :
    evictGo 5 1 [] [⟨10, 7⟩, ⟨1, 7⟩] = some [⟨10, 7⟩, ⟨1, 7⟩] ∧
    (⟨1, 7⟩ : DestructItem).version ≤ 5 ∧
    evictGo 5 2 [] [⟨1, 7⟩] = none := by
  decide

/-- Claim C10.  When the selected data item and the selected destruct marker
have exactly equal versions, the data item wins: the written value is returned
with `needFallbackToDisk = false`, for accounts and for storage slots. -/
theorem C10_thm :
    (∀ (c : MVCache) (version rootHash ahash : Nat) (ai : AccountItem) (di : DestructItem),
      scanAccountItem c version rootHash ahash = some ai →
      scanAccountDestruct c version rootHash ahash = some di →
      ai.version = di.version →
      QueryAccount c version rootHash ahash = ⟨some ai.data, false, none⟩) ∧
    (∀ (c : MVCache) (version rootHash ahash shash : Nat) (si : StorageItem) (di : DestructItem),
      scanStorageItem c version rootHash ahash shash = some si →
      scanAccountDestruct c version rootHash ahash = some di →
      si.version = di.version →
      QueryStorage c version rootHash ahash shash = ⟨some si.data, false, none⟩) := by
  constructor
  · intro c version rootHash ahash ai di h1 h2 hv
    simp only [QueryAccount, h1, h2]
    rw [if_pos (Nat.le_of_eq hv.symm)]
  · intro c version rootHash ahash shash si di h1 h2 hv
    simp only [QueryStorage, h1, h2]
    rw [if_pos (Nat.le_of_eq hv.symm)]

/-- Witness for C10: a layer that destructs and re-writes account 1 at version 5
yields an exact version tie, and the written value `[9]` is returned. -/
theorem C10_witness : QueryAccount c10 5 31 1 = ⟨some [9], false, none⟩ :=
  C10_thm.1 c10 5 31 1 ⟨5, 31, [9]⟩ ⟨5, 31⟩ (by decide) (by decide) (by decide)

/-- Claim C6.  `lookupAccount` (and `lookupStorage`) scans the key's entry list
from most-recently-added to oldest and returns the first entry whose root equals
the head or that has the head among its recorded descendants (no later entry
qualifies); a full scan without a qualifying entry returns nothing.  In
particular, on the chain disk → D1(writes k) → D2(writes k) → D3(no write to k),
the lookup of k at head D3 returns D2's layer and at head D1 returns D1's
layer. -/
theorem C6_thm :
    (∀ (l : Lookup) (ahash head : Nat) (e : DiffLayer),
      lookupAccount l ahash head = some e →
      ∃ s t, l.state2LayerRoots (StateKey.acct ahash) = s ++ e :: t ∧
        lookupPred l head e = true ∧ ∀ y ∈ t, lookupPred l head y = false) ∧
    (∀ (l : Lookup) (ahash shash head : Nat) (e : DiffLayer),
      lookupStorage l ahash shash head = some e →
      ∃ s t, l.state2LayerRoots (StateKey.slot ahash shash) = s ++ e :: t ∧
        lookupPred l head e = true ∧ ∀ y ∈ t, lookupPred l head y = false) ∧
    (∀ (l : Lookup) (ahash head : Nat),
      lookupAccount l ahash head = none →
      ∀ e ∈ l.state2LayerRoots (StateKey.acct ahash), lookupPred l head e = false) ∧
    lookupAccount lk6 5 3 = some d62 ∧
    lookupAccount lk6 5 1 = some d61 := by
  refine ⟨?_, ?_, ?_, by decide, by decide⟩
  · intro l ahash head e hq
    exact findLastQ_split hq
  · intro l ahash shash head e hq
    exact findLastQ_split hq
  · intro l ahash head hq
    exact findLastQ_none_forall hq

/-- Witness for C6: the entry returned at head D3 sits in the entry list of key
5, qualifies, and no later entry qualifies. -/
theorem C6_witness :
    ∃ s t, lk6.state2LayerRoots (StateKey.acct 5) = s ++ d62 :: t ∧
      lookupPred lk6 3 d62 = true ∧ ∀ y ∈ t, lookupPred lk6 3 y = false :=
  C6_thm.1 lk6 5 3 d62 (by decide)

/-! ## Bloom filter lemmas -/

theorem mem_inner_fold_acc (bitsFn : Nat → List Nat) (hashFn : Nat → List Nat → Nat) (o : Nat) :
    ∀ (ps : List (List Nat)) (f : List Nat) (x : Nat), x ∈ f →
      x ∈ ps.foldl (fun f2 p => addHash bitsFn f2 (hashFn o p)) f := by
  intro ps
  induction ps with
  | nil => intro f x hx; simpa using hx
  | cons p ps ih =>
    intro f x hx
    exact ih (addHash bitsFn f (hashFn o p)) x
      (by simpa [addHash] using List.mem_append_left (bitsFn (hashFn o p)) hx)

theorem mem_inner_fold (bitsFn : Nat → List Nat) (hashFn : Nat → List Nat → Nat) (o : Nat) :
    ∀ (ps : List (List Nat)) (f : List Nat) (p : List Nat) (x : Nat),
      p ∈ ps → x ∈ bitsFn (hashFn o p) →
      x ∈ ps.foldl (fun f2 q => addHash bitsFn f2 (hashFn o q)) f := by
  intro ps
  induction ps with
  | nil => intro f p x hp _; cases hp
  | cons q ps ih =>
    intro f p x hp hx
    rcases List.mem_cons.mp hp with rfl | hp'
    · exact mem_inner_fold_acc bitsFn hashFn o ps _ x
        (by simpa [addHash] using List.mem_append_right f hx)
    · exact ih _ p x hp' hx

theorem mem_outer_fold_acc (bitsFn : Nat → List Nat) (hashFn : Nat → List Nat → Nat) :
    ∀ (nodes : List (Nat × List (List Nat))) (f : List Nat) (x : Nat), x ∈ f →
      x ∈ nodes.foldl
        (fun f op => op.2.foldl (fun f2 p => addHash bitsFn f2 (hashFn op.1 p)) f) f := by
  intro nodes
  induction nodes with
  | nil => intro f x hx; simpa using hx
  | cons op nodes ih =>
    intro f x hx
    exact ih _ x (mem_inner_fold_acc bitsFn hashFn op.1 op.2 f x hx)

theorem mem_outer_fold (bitsFn : Nat → List Nat) (hashFn : Nat → List Nat → Nat) :
    ∀ (nodes : List (Nat × List (List Nat))) (f : List Nat)
      (o : Nat) (ps : List (List Nat)) (p : List Nat) (x : Nat),
      (o, ps) ∈ nodes → p ∈ ps → x ∈ bitsFn (hashFn o p) →
      x ∈ nodes.foldl
        (fun f op => op.2.foldl (fun f2 q => addHash bitsFn f2 (hashFn op.1 q)) f) f := by
  intro nodes
  induction nodes with
  | nil => intro f o ps p x h; cases h
  | cons op nodes ih =>
    intro f o ps p x hmem hp hx
    rcases List.mem_cons.mp hmem with heq | hmem'
    · refine mem_outer_fold_acc bitsFn hashFn nodes _ x ?_
      have h1 : op.1 = o := by rw [← heq]
      have h2 : op.2 = ps := by rw [← heq]
      show x ∈ op.2.foldl (fun f2 q => addHash bitsFn f2 (hashFn op.1 q)) f
      rw [h1, h2]
      exact mem_inner_fold bitsFn hashFn o ps f p x hp hx
    · exact ih _ o ps p x hmem' hp hx

theorem mem_diffedBits (bitsFn : Nat → List Nat) (hashFn : Nat → List Nat → Nat) :
    ∀ (l : PathLayer) (owner : Nat) (path : List Nat) (x : Nat),
      writtenAbove l owner path = true → x ∈ bitsFn (hashFn owner path) →
      x ∈ diffedBits bitsFn hashFn l := by
  intro l
  induction l with
  | disk r => intro o p x hw _; simp [writtenAbove] at hw
  | diff r i nodes parent ih =>
    intro o p x hw hx
    simp only [writtenAbove, Bool.or_eq_true] at hw
    simp only [diffedBits]
    rcases hw with hw | hw
    · refine List.mem_append_right _ ?_
      simp only [writesKey, List.any_eq_true, Bool.and_eq_true, decide_eq_true_eq] at hw
      obtain ⟨op, hop, ho, hps⟩ := hw
      obtain ⟨p', hp', rfl⟩ := hps
      have hmem : (o, op.2) ∈ nodes := by
        rw [← ho]
        simpa using hop
      exact mem_outer_fold bitsFn hashFn nodes [] o op.2 p' x hmem hp' hx
    · exact List.mem_append_left _ (ih o p x hw hx)

/-- Claim C7.  For every key written by some diff layer of a layer's parent
chain, the layer's cumulative bloom filter (the union of its own `selfDiffed`
with its diff-layer ancestors' filters) contains the key's bloom hash, so
`Node` never takes the bloom-miss shortcut straight to the disk layer for such
a key — the shortcut is taken only for keys written by no diff layer on the
path.  This holds for every bit-spread function and every key-hash function. -/
theorem C7_thm (bitsFn : Nat → List Nat) (hashFn : Nat → List Nat → Nat)
    (l : PathLayer) (owner : Nat) (path : List Nat)
    (hw : writtenAbove l owner path = true) :
    containsHash bitsFn (diffedBits bitsFn hashFn l) (hashFn owner path) = true ∧
    nodeRoute bitsFn hashFn l owner path = .walk := by
  have hc : containsHash bitsFn (diffedBits bitsFn hashFn l) (hashFn owner path) = true := by
    simp only [containsHash, List.all_eq_true, decide_eq_true_eq]
    intro b hb
    exact mem_diffedBits bitsFn hashFn l owner path b hw hb
  refine ⟨hc, ?_⟩
  cases l with
  | disk r => simp [writtenAbove] at hw
  | diff r i nodes parent =>
    simp only [nodeRoute]
    rw [if_pos hc]

/-- Witness for C7: a concrete two-layer chain where the parent wrote
`(owner 2, path [3])`; the head's cumulative filter contains the key and the
head routes the query into the diff walk. -/
theorem C7_witness :
    containsHash bitsFn0 (diffedBits bitsFn0 hashFn0 layer7) (hashFn0 2 [3]) = true ∧
    nodeRoute bitsFn0 hashFn0 layer7 2 [3] = .walk :=
  C7_thm bitsFn0 hashFn0 layer7 2 [3] (by decide)

/-! ## Lookup removal lemmas -/

theorem updMap_apply_self {κ α : Type} [DecidableEq κ] (m : κ → α) (k : κ) (v : α) :
    updMap m k v k = v := by
  simp [updMap]

theorem updMap_apply_ne {κ α : Type} [DecidableEq κ] (m : κ → α) (k : κ) (v : α)
    (k' : κ) (h : k' ≠ k) : updMap m k v k' = m k' := by
  simp [updMap, h]

theorem eraseFirstRoot_none_iff (r : Nat) :
    ∀ {l : List DiffLayer}, eraseFirstRoot r l = none ↔ ∀ e ∈ l, ¬(e.root = r) := by
  intro l
  induction l with
  | nil => simp [eraseFirstRoot]
  | cons e es ih =>
    simp only [eraseFirstRoot]
    by_cases h : e.root = r
    · simp [h, List.forall_mem_cons]
    · simp [h, List.forall_mem_cons, Option.map_eq_none', ih]

theorem eraseFirstRoot_some_spec (r : Nat) :
    ∀ {l s : List DiffLayer}, eraseFirstRoot r l = some s →
      s.length + 1 = l.length ∧
      s.countP (fun e => decide (e.root = r)) + 1 = l.countP (fun e => decide (e.root = r)) := by
  intro l
  induction l with
  | nil => intro s h; simp [eraseFirstRoot] at h
  | cons e es ih =>
    intro s h
    simp only [eraseFirstRoot] at h
    by_cases he : e.root = r
    · rw [if_pos he] at h
      obtain rfl : es = s := Option.some.inj h
      refine ⟨by simp, ?_⟩
      simp [List.countP_cons, he]
    · rw [if_neg he] at h
      cases hes : eraseFirstRoot r es with
      | none => rw [hes] at h; cases h
      | some u =>
        rw [hes, Option.map_some'] at h
        obtain rfl : e :: u = s := Option.some.inj h
        obtain ⟨hl, hc⟩ := ih hes
        refine ⟨by simp [← hl], ?_⟩
        simp [List.countP_cons, he]
        omega

theorem eraseFirstRoot_append (r : Nat) (d : DiffLayer) (hd : d.root = r) :
    ∀ {xs : List DiffLayer}, (∀ e ∈ xs, ¬(e.root = r)) →
      eraseFirstRoot r (xs ++ [d]) = some xs := by
  intro xs
  induction xs with
  | nil => intro _; simp [eraseFirstRoot, hd]
  | cons e es ih =>
    intro hall
    have he : ¬(e.root = r) := hall e (List.mem_cons_self _ _)
    simp only [List.cons_append, eraseFirstRoot, if_neg he]
    show Option.map (fun x => e :: x) (eraseFirstRoot r (es ++ [d])) = some (e :: es)
    rw [ih (fun e' h' => hall e' (List.mem_cons_of_mem _ h'))]
    rfl

theorem removeFromKey_ok_of_exists (r : Nat) (m : StateKey → List DiffLayer) (k : StateKey)
    (hex : ∃ e ∈ m k, e.root = r) :
    ∃ s, eraseFirstRoot r (m k) = some s ∧ removeFromKey r m k = .ok (updMap m k s) := by
  have hne : eraseFirstRoot r (m k) ≠ none := by
    rw [Ne, eraseFirstRoot_none_iff]
    push_neg
    obtain ⟨e, he, hr⟩ := hex
    exact ⟨e, he, hr⟩
  cases hs : eraseFirstRoot r (m k) with
  | none => exact absurd hs hne
  | some s =>
    refine ⟨s, rfl, ?_⟩
    have hnonnil : ¬(m k = []) := by
      intro hnil
      rw [hnil] at hs
      simp [eraseFirstRoot] at hs
    unfold removeFromKey
    rw [if_neg hnonnil, hs]

theorem removeFromKey_ok_inv (r : Nat) (m : StateKey → List DiffLayer) (k : StateKey)
    (m1 : StateKey → List DiffLayer) (h : removeFromKey r m k = .ok m1) :
    ∃ s, eraseFirstRoot r (m k) = some s ∧ m1 = updMap m k s := by
  unfold removeFromKey at h
  by_cases hnil : m k = []
  · rw [if_pos hnil] at h; cases h
  · rw [if_neg hnil] at h
    cases hs : eraseFirstRoot r (m k) with
    | none => rw [hs] at h; cases h
    | some s =>
      rw [hs] at h
      exact ⟨s, rfl, (Except.ok.inj h).symm⟩

theorem removeFromKey_ok_exists (r : Nat) (m : StateKey → List DiffLayer) (k : StateKey)
    (m1 : StateKey → List DiffLayer) (h : removeFromKey r m k = .ok m1) :
    ∃ e ∈ m k, e.root = r := by
  obtain ⟨s, hs, _⟩ := removeFromKey_ok_inv r m k m1 h
  by_contra hall
  push_neg at hall
  rw [(eraseFirstRoot_none_iff r).mpr hall] at hs
  cases hs

theorem removeKeysM_ok_iff (r : Nat) :
    ∀ (ks : List StateKey) (m : StateKey → List DiffLayer), ks.Nodup →
      ((∃ m', removeKeysM r m ks = .ok m') ↔ ∀ k ∈ ks, ∃ e ∈ m k, e.root = r) := by
  intro ks
  induction ks with
  | nil =>
    intro m _
    constructor
    · intro _ k hk; cases hk
    · intro _; exact ⟨m, rfl⟩
  | cons k ks ih =>
    intro m hnd
    obtain ⟨hk_not, hnd'⟩ := List.nodup_cons.mp hnd
    constructor
    · rintro ⟨m', hm'⟩ k' hk'
      cases hf : removeFromKey r m k with
      | error e => rw [removeKeysM, hf] at hm'; cases hm'
      | ok m1 =>
        rw [removeKeysM, hf] at hm'
        rcases List.mem_cons.mp hk' with rfl | hk2
        · exact removeFromKey_ok_exists r m k' m1 hf
        · have hq := ((ih m1 hnd').mp ⟨m', hm'⟩) k' hk2
          obtain ⟨s, _, hm1⟩ := removeFromKey_ok_inv r m k m1 hf
          rwa [hm1, updMap_apply_ne _ _ _ _ (by rintro rfl; exact hk_not hk2)] at hq
    · intro hall
      obtain ⟨s, _, hstep⟩ :=
        removeFromKey_ok_of_exists r m k (hall k (List.mem_cons_self _ _))
      have hall' : ∀ k' ∈ ks, ∃ e ∈ updMap m k s k', e.root = r := by
        intro k' hk'
        rw [updMap_apply_ne _ _ _ _ (by rintro rfl; exact hk_not hk')]
        exact hall k' (List.mem_cons_of_mem _ hk')
      obtain ⟨m', hm'⟩ := (ih (updMap m k s) hnd').mpr hall'
      refine ⟨m', ?_⟩
      rw [removeKeysM, hstep]
      exact hm'

theorem removeKeysM_ok_spec (r : Nat) :
    ∀ (ks : List StateKey) (m m' : StateKey → List DiffLayer), ks.Nodup →
      removeKeysM r m ks = .ok m' →
      (∀ k ∈ ks, ∃ s, eraseFirstRoot r (m k) = some s ∧ m' k = s) ∧
      (∀ k, k ∉ ks → m' k = m k) := by
  intro ks
  induction ks with
  | nil =>
    intro m m' _ h
    obtain rfl : m = m' := Except.ok.inj h
    exact ⟨fun k hk => absurd hk (List.not_mem_nil k), fun k _ => rfl⟩
  | cons k ks ih =>
    intro m m' hnd h
    obtain ⟨hk_not, hnd'⟩ := List.nodup_cons.mp hnd
    cases hf : removeFromKey r m k with
    | error e => rw [removeKeysM, hf] at h; cases h
    | ok m1 =>
      rw [removeKeysM, hf] at h
      obtain ⟨hspec, huntouched⟩ := ih m1 m' hnd' h
      obtain ⟨s, hs, hm1⟩ := removeFromKey_ok_inv r m k m1 hf
      constructor
      · intro k' hk'
        rcases List.mem_cons.mp hk' with rfl | hk2
        · refine ⟨s, hs, ?_⟩
          rw [huntouched k' hk_not, hm1, updMap_apply_self]
        · obtain ⟨s', hs', hm's⟩ := hspec k' hk2
          refine ⟨s', ?_, hm's⟩
          rwa [hm1, updMap_apply_ne _ _ _ _ (by rintro rfl; exact hk_not hk2)] at hs'
      · intro k' hk'
        have h1 : k' ∉ ks := fun hh => hk' (List.mem_cons_of_mem _ hh)
        have h2 : k' ≠ k := fun hh => hk' (hh ▸ List.mem_cons_self _ _)
        rw [huntouched k' h1, hm1, updMap_apply_ne _ _ _ _ h2]

/-- Claim C8.  `removeLayer(diff)` returns an error if and only if some key
touched by the layer (account or storage slot) has no entry with the layer's
root in its list; when every touched key has a matching entry, it succeeds,
removing EXACTLY ONE entry per touched key — and that entry matched the root —
while leaving untouched keys and the descendants relation unchanged.  (The
touched keys are pairwise distinct, being Go map keys.) -/
theorem C8_thm (l : Lookup) (d : DiffLayer) (hnd : (touchedKeys d).Nodup) :
    ((∃ msg, removeLayer l d = .error msg) ↔
      ∃ k ∈ touchedKeys d, ∀ e ∈ l.state2LayerRoots k, ¬(e.root = d.root)) ∧
    (∀ l', removeLayer l d = .ok l' →
      (∀ k ∈ touchedKeys d,
        (l'.state2LayerRoots k).length + 1 = (l.state2LayerRoots k).length ∧
        (l'.state2LayerRoots k).countP (fun e => decide (e.root = d.root)) + 1 =
          (l.state2LayerRoots k).countP (fun e => decide (e.root = d.root))) ∧
      (∀ k, k ∉ touchedKeys d → l'.state2LayerRoots k = l.state2LayerRoots k) ∧
      l'.descendants = l.descendants) := by
  constructor
  · cases hres : removeKeysM d.root l.state2LayerRoots (touchedKeys d) with
    | error e =>
      constructor
      · intro _
        by_contra hno
        push_neg at hno
        have hall : ∀ k ∈ touchedKeys d, ∃ x ∈ l.state2LayerRoots k, x.root = d.root := by
          intro k hk
          obtain ⟨x, hx, hr⟩ := hno k hk
          exact ⟨x, hx, hr⟩
        obtain ⟨m', hm'⟩ :=
          (removeKeysM_ok_iff d.root (touchedKeys d) l.state2LayerRoots hnd).mpr hall
        rw [hres] at hm'
        cases hm'
      · intro _
        exact ⟨e, by rw [removeLayer, hres]⟩
    | ok m =>
      constructor
      · rintro ⟨msg, hmsg⟩
        rw [removeLayer, hres] at hmsg
        cases hmsg
      · rintro ⟨k, hk, hmiss⟩
        have := ((removeKeysM_ok_iff d.root (touchedKeys d) l.state2LayerRoots hnd).mp
          ⟨m, hres⟩) k hk
        obtain ⟨e, he, hr⟩ := this
        exact absurd hr (hmiss e he)
  · intro l' h
    cases hres : removeKeysM d.root l.state2LayerRoots (touchedKeys d) with
    | error e => rw [removeLayer, hres] at h; cases h
    | ok m =>
      rw [removeLayer, hres] at h
      obtain rfl : (⟨m, l.descendants⟩ : Lookup) = l' := Except.ok.inj h
      obtain ⟨hspec, huntouched⟩ :=
        removeKeysM_ok_spec d.root (touchedKeys d) l.state2LayerRoots m hnd hres
      refine ⟨?_, fun k hk => huntouched k hk, rfl⟩
      intro k hk
      obtain ⟨s, hs, hms⟩ := hspec k hk
      have hcounts := eraseFirstRoot_some_spec d.root hs
      constructor
      · show (m k).length + 1 = (l.state2LayerRoots k).length
        rw [hms]
        exact hcounts.1
      · show (m k).countP (fun e => decide (e.root = d.root)) + 1 =
          (l.state2LayerRoots k).countP (fun e => decide (e.root = d.root))
        rw [hms]
        exact hcounts.2

/-- Witness for C8: against the empty index, removing a layer that touched a
key is an `IndexCorruption`-style error. -/
theorem C8_witness : ∃ msg, removeLayer emptyLookup d8 = .error msg :=
  (C8_thm emptyLookup d8 (by decide)).1.mpr
    ⟨StateKey.acct 6, by decide, by decide⟩

/-! ## Round-trip lemmas -/

theorem addKeys_apply (d : DiffLayer) :
    ∀ (ks : List StateKey) (m : StateKey → List DiffLayer) (k' : StateKey),
      addKeys d m ks k' = m k' ++ List.replicate (ks.count k') d := by
  intro ks
  induction ks with
  | nil => intro m k'; simp [addKeys]
  | cons k ks ih =>
    intro m k'
    rw [addKeys, ih]
    by_cases h : k' = k
    · subst h
      rw [updMap_apply_self, List.count_cons_self, List.append_assoc]
      rfl
    · rw [updMap_apply_ne _ _ _ _ h, List.count_cons_of_ne h]

theorem foldlM_single (f : Lookup → DiffLayer → Except String Lookup)
    (b : Lookup) (a : DiffLayer) : List.foldlM f b [a] = f b a := by
  show (f b a >>= fun b' => pure b') = f b a
  cases f b a <;> rfl

theorem remove_add_roundtrip (d : DiffLayer) :
    ∀ (ks : List StateKey) (m : StateKey → List DiffLayer), ks.Nodup →
      (∀ k e, e ∈ m k → ¬(e.root = d.root)) →
      removeKeysM d.root (addKeys d m ks) ks = .ok m := by
  intro ks
  induction ks with
  | nil => intro m _ _; rfl
  | cons k ks ih =>
    intro m hnd hclean
    obtain ⟨hk_not, hnd'⟩ := List.nodup_cons.mp hnd
    have hcount : ks.count k = 0 := List.count_eq_zero.mpr hk_not
    have happly : addKeys d (updMap m k (m k ++ [d])) ks k = m k ++ [d] := by
      rw [addKeys_apply, hcount, updMap_apply_self]
      simp
    have herase : eraseFirstRoot d.root (m k ++ [d]) = some (m k) :=
      eraseFirstRoot_append d.root d rfl (fun e he => hclean k e he)
    have hne : ¬(addKeys d (updMap m k (m k ++ [d])) ks k = []) := by
      rw [happly]
      simp
    have hstep : removeFromKey d.root (addKeys d (updMap m k (m k ++ [d])) ks) k =
        .ok (updMap (addKeys d (updMap m k (m k ++ [d])) ks) k (m k)) := by
      unfold removeFromKey
      rw [if_neg hne, happly, herase]
    have hfun : updMap (addKeys d (updMap m k (m k ++ [d])) ks) k (m k) = addKeys d m ks := by
      funext k'
      by_cases h : k' = k
      · subst h
        rw [updMap_apply_self, addKeys_apply, hcount]
        simp
      · rw [updMap_apply_ne _ _ _ _ h, addKeys_apply, addKeys_apply,
          updMap_apply_ne _ _ _ _ h]
    show removeKeysM d.root (addKeys d (updMap m k (m k ++ [d])) ks) (k :: ks) = .ok m
    rw [removeKeysM, hstep, hfun]
    exact ih m hnd' hclean

theorem roundtrip_aux :
    ∀ (ds : List DiffLayer) (l : Lookup), (ds.map (fun d => d.root)).Nodup →
      (∀ d ∈ ds, (touchedKeys d).Nodup) →
      (∀ k e, e ∈ l.state2LayerRoots k → ∀ d ∈ ds, ¬(e.root = d.root)) →
      l.descendants = (fun _ => []) →
      List.foldlM removeStep (List.foldl addLayer l ds) ds.reverse = .ok l := by
  intro ds
  induction ds with
  | nil => intro l _ _ _ _; rfl
  | cons d ds ih =>
    intro l hroots htouch hclean hdesc
    have hroots0 : d.root ∉ ds.map (fun d => d.root) ∧ (ds.map (fun d => d.root)).Nodup := by
      rw [List.map_cons] at hroots
      exact List.nodup_cons.mp hroots
    have htouch' : ∀ d' ∈ ds, (touchedKeys d').Nodup :=
      fun d' h => htouch d' (List.mem_cons_of_mem _ h)
    have hclean' : ∀ k e, e ∈ (addLayer l d).state2LayerRoots k →
        ∀ d' ∈ ds, ¬(e.root = d'.root) := by
      intro k e he d' hd'
      have he' : e ∈ addKeys d l.state2LayerRoots (touchedKeys d) k := he
      rw [addKeys_apply] at he'
      rcases List.mem_append.mp he' with he'' | he''
      · exact hclean k e he'' d' (List.mem_cons_of_mem _ hd')
      · obtain rfl : e = d := List.eq_of_mem_replicate he''
        intro hcontra
        exact hroots0.1 (hcontra ▸ List.mem_map_of_mem (fun d => d.root) hd')
    have hdesc' : (addLayer l d).descendants = (fun _ => []) := hdesc
    rw [List.foldl_cons, List.reverse_cons, List.foldlM_append,
      ih (addLayer l d) hroots0.2 htouch' hclean' hdesc']
    show List.foldlM removeStep (addLayer l d) [d] = .ok l
    rw [foldlM_single]
    have hrem : removeKeysM d.root (addLayer l d).state2LayerRoots (touchedKeys d) =
        .ok l.state2LayerRoots :=
      remove_add_roundtrip d (touchedKeys d) l.state2LayerRoots
        (htouch d (List.mem_cons_self _ _))
        (fun k e he => hclean k e he d (List.mem_cons_self _ _))
    rw [removeStep, removeLayer, hrem]
    have hupd : updMap l.descendants d.root ([] : List Nat) = l.descendants := by
      funext r'
      by_cases h : r' = d.root
      · simp [updMap, h, hdesc]
      · simp [updMap, h]
    show Except.ok ⟨l.state2LayerRoots, updMap l.descendants d.root []⟩ = .ok l
    rw [hupd]

/-- Claim C9.  Starting from the empty index, any sequence of `addLayer` calls
followed by the matching `removeLayer` + `removeDescendant` calls in reverse
order returns the key-to-entry-list map and the descendants map to the empty
state, with every removal succeeding.  (Layer roots are pairwise distinct —
roots are globally unique — and each layer's touched keys are distinct, being
Go map keys.) -/
theorem C9_thm (ds : List DiffLayer)
    (hroots : (ds.map (fun d => d.root)).Nodup)
    (htouch : ∀ d ∈ ds, (touchedKeys d).Nodup) :
    List.foldlM removeStep (List.foldl addLayer emptyLookup ds) ds.reverse =
      .ok emptyLookup :=
  roundtrip_aux ds emptyLookup hroots htouch
    (fun _ e he => absurd he (List.not_mem_nil e)) rfl

/-- Witness for C9: two concrete layers added then retired in reverse order
restore the empty index. -/
theorem C9_witness :
    List.foldlM removeStep (List.foldl addLayer emptyLookup [d91, d92])
      [d91, d92].reverse = .ok emptyLookup :=
  C9_thm [d91, d92] (by decide) (by decide)

end Bsc
